import Mathlib

/-!
Verification of the expense tracker's core logic (src/app.py): the flexible
date-input parser `parse_date_input` and the duplicate-detection workflow in
`add_expense` / `remove_duplicates`.

Python strings are embedded as `List Char`; `int` amounts stay `Nat`, currency
amounts are `Rat`.  Fallible operations return `Option`.
-/

namespace ExpTracker

/-! ### Character and string helpers (modelling Python str methods) -/

/-- Models Python's `str.isdigit` test on a single ASCII character
(`'0'` to `'9'`, i.e. code points 48-57). -/
def isDigitCh (c : Char) : Bool := decide (48 ≤ c.toNat ∧ c.toNat ≤ 57)

/-- Models Python's notion of whitespace as used by `str.strip`
(space, tab, newline, carriage return, vertical tab, form feed). -/
def isSpaceCh (c : Char) : Bool :=
  decide (c.toNat = 32 ∨ c.toNat = 9 ∨ c.toNat = 10 ∨ c.toNat = 13 ∨ c.toNat = 11 ∨ c.toNat = 12)

/-- Models Python's `s.isdigit()`: nonempty and all digit characters. -/
def pyIsDigit (s : List Char) : Bool := !s.isEmpty && s.all isDigitCh

/-- Models Python's `s.strip()`: drop whitespace from both ends. -/
def pyStrip (s : List Char) : List Char :=
  ((s.dropWhile isSpaceCh).reverse.dropWhile isSpaceCh).reverse

/-- Models Python's `s.split('-')`: the chunks between dashes, keeping empty
chunks, with `split` of the empty string giving one empty chunk. -/
def splitDash : List Char → List (List Char)
  | [] => [[]]
  | c :: cs =>
    if c = '-' then [] :: splitDash cs
    else
      match splitDash cs with
      | [] => [c] :: []
      | p :: ps => (c :: p) :: ps

/-- Numeric value of a digit character. -/
def digitVal (c : Char) : Nat := c.toNat - 48

/-- Decimal value of a digit string. -/
def digitsVal (s : List Char) : Nat := s.foldl (fun a c => 10 * a + digitVal c) 0

/-- Models Python's `int(s)` on the inputs this program feeds it: succeeds on
nonempty all-digit strings, fails (raises `ValueError`) otherwise.  Python's
`int` additionally tolerates surrounding whitespace and a sign; no behaviour
verified here depends on those spellings. -/
def pyInt (s : List Char) : Option Nat :=
  if pyIsDigit s then some (digitsVal s) else none

/-! ### Calendar arithmetic (modelling Python `datetime`) -/

/-- Gregorian leap-year rule, as used by Python's `datetime`. -/
def isLeapYear (y : Nat) : Bool := (y % 4 == 0 && y % 100 != 0) || y % 400 == 0

/-- Number of days in month `m` of year `y`. -/
def daysInMonth (y m : Nat) : Nat :=
  if m = 2 then (if isLeapYear y then 29 else 28)
  else if m = 4 ∨ m = 6 ∨ m = 9 ∨ m = 11 then 30
  else 31

/-- Models success of the constructor `datetime(y, m, d)`: Python accepts
exactly years 1-9999, months 1-12 and days 1 to the month's length. -/
def validDate (y m d : Nat) : Bool :=
  decide (1 ≤ y ∧ y ≤ 9999 ∧ 1 ≤ m ∧ m ≤ 12 ∧ 1 ≤ d ∧ d ≤ daysInMonth y m)

/-- Decimal digit characters of `n` (models Python's decimal rendering). -/
def natDigits (n : Nat) : List Char := Nat.toDigits 10 n

/-- Models the zero-padding format `f"{n:0wd}"` for the widths used here. -/
def padNum (w n : Nat) : List Char :=
  List.replicate (w - (natDigits n).length) '0' ++ natDigits n

/-- The canonical output format `f"{y:04d}-{m:02d}-{d:02d}"` (also produced by
`strftime("%Y-%m-%d")` in the day-only branch). -/
def fmtDate (y m d : Nat) : List Char :=
  padNum 4 y ++ '-' :: (padNum 2 m ++ '-' :: padNum 2 d)

/-- The two-digit-year expansion `2000 + year if year < 100 else year`
from the `YY-MM-DD` branch of `parse_date_input`. -/
def expandYear (y : Nat) : Nat := if y < 100 then 2000 + y else y

/-! ### The date parser

Embeds `parse_date_input` (src/app.py lines 201-261).  The implicit
`datetime.now()` reference date is made an explicit pair of parameters
`todayY`, `todayM` (only its year and month are read). -/

/-- The body of `parse_date_input` after the reassignment
`date_input = str(date_input).strip()`, modelling the NORMAL-RETURN value only
(`none` is `return None`).  The 3-part branches guard `datetime` with
`except (ValueError, IndexError)` alone, so an `OverflowError` from a huge
month or day is NOT caught there and propagates out of the function instead of
becoming `None`; that raising path is modelled separately by
`parseStrippedExc`, and `parseStrippedExc_ret` proves this function is exactly
its normal-return projection. -/
def parseStripped (todayY todayM : Nat) (s : List Char) : Option (List Char) :=
  if pyIsDigit s = true ∧ s.length ≤ 2 ∧ 1 ≤ digitsVal s ∧ digitsVal s ≤ 31 then
      -- day-only branch: datetime(today.year, today.month, day)
      if validDate todayY todayM (digitsVal s) = true then
        some (fmtDate todayY todayM (digitsVal s))
      else none
    else
      match splitDash s with
      | [p0, p1, p2] =>
        if p0.length = 4 then
          -- YYYY-MM-DD branch
          match pyInt p0, pyInt p1, pyInt p2 with
          | some y, some m, some d =>
            if validDate y m d = true then some (fmtDate y m d) else none
          | _, _, _ => none
        else if p0.length ≤ 2 then
          -- YY-MM-DD branch
          match pyInt p0, pyInt p1, pyInt p2 with
          | some y, some m, some d =>
            if validDate (expandYear y) m d = true then
              some (fmtDate (expandYear y) m d)
            else none
          | _, _, _ => none
        else none
      | [p0, p1] =>
        -- MM-DD branch: range-check before datetime(today.year, month, day)
        match pyInt p0, pyInt p1 with
        | some m, some d =>
          if 1 ≤ m ∧ m ≤ 12 ∧ 1 ≤ d ∧ d ≤ 31 then
            if validDate todayY m d = true then some (fmtDate todayY m d) else none
          else none
        | _, _ => none
      | _ => none

def parse_date_input (todayY todayM : Nat) (raw : List Char) : Option (List Char) :=
  if raw.isEmpty then none
  else parseStripped todayY todayM (pyStrip raw)

example : parse_date_input 2024 6 ("15".toList) = some ("2024-06-15".toList) := by decide
example : parse_date_input 2024 6 ("31".toList) = none := by decide
example : parse_date_input 2024 6 ("24-1-15".toList) = some ("2024-01-15".toList) := by decide
example : parse_date_input 2024 6 ("2024-01-15".toList) = some ("2024-01-15".toList) := by decide
example : parse_date_input 2024 6 ("02-30".toList) = none := by decide
example : parse_date_input 2024 6 ("13-01".toList) = none := by decide
example : parse_date_input 2024 6 ("01-15".toList) = some ("2024-01-15".toList) := by decide
example : parse_date_input 2023 2 ("29".toList) = none := by decide
example : parse_date_input 2024 2 ("29".toList) = some ("2024-02-29".toList) := by decide

/-! ### Exception-aware model of the parser

CPython's `datetime(year, month, day)` converts its arguments through C `int`
format units before range-checking, so an argument above `2^31 - 1` raises
`OverflowError` (not a `ValueError`).  The two 3-part branches of
`parse_date_input` catch only `(ValueError, IndexError)`, so there the
`OverflowError` escapes the function.  The defs below embed
`parse_date_input` with that raising path made explicit. -/

/-- Outcome of the constructor call `datetime(y, m, d)` in CPython:
arguments above `2^31 - 1` overflow the C `int` conversion (`OverflowError`),
in-range arguments that form no real calendar date raise `ValueError`,
and the rest succeed. -/
inductive DatetimeOutcome where
  | ok
  | valueError
  | overflowError
deriving DecidableEq, Repr

def datetimeOutcome (y m d : Nat) : DatetimeOutcome :=
  if y ≤ 2147483647 ∧ m ≤ 2147483647 ∧ d ≤ 2147483647 then
    (if validDate y m d = true then .ok else .valueError)
  else .overflowError

/-- Result of a call to `parse_date_input` with exceptions made explicit:
either a normal return (`None` or a date string) or an uncaught
`OverflowError` propagating to the caller. -/
inductive PyCallResult where
  | ret (value : Option (List Char))
  | raisedOverflow
deriving DecidableEq, Repr

/-- Exception-aware embedding of the post-strip body of `parse_date_input`.
In the day-only branch only `ValueError` is caught, and in the two 3-part and
the MM-DD branches only `(ValueError, IndexError)` are; every `datetime` call
is therefore routed through `datetimeOutcome`, and an `overflowError` outcome
aborts the function instead of returning `None`. -/
def parseStrippedExc (todayY todayM : Nat) (s : List Char) : PyCallResult :=
  if pyIsDigit s = true ∧ s.length ≤ 2 ∧ 1 ≤ digitsVal s ∧ digitsVal s ≤ 31 then
      -- day-only branch: `except ValueError` only
      match datetimeOutcome todayY todayM (digitsVal s) with
      | .ok => .ret (some (fmtDate todayY todayM (digitsVal s)))
      | .valueError => .ret none
      | .overflowError => .raisedOverflow
    else
      match splitDash s with
      | [p0, p1, p2] =>
        if p0.length = 4 then
          -- YYYY-MM-DD branch: `except (ValueError, IndexError)` only
          match pyInt p0, pyInt p1, pyInt p2 with
          | some y, some m, some d =>
            match datetimeOutcome y m d with
            | .ok => .ret (some (fmtDate y m d))
            | .valueError => .ret none
            | .overflowError => .raisedOverflow
          | _, _, _ => .ret none
        else if p0.length ≤ 2 then
          -- YY-MM-DD branch: `except (ValueError, IndexError)` only
          match pyInt p0, pyInt p1, pyInt p2 with
          | some y, some m, some d =>
            match datetimeOutcome (expandYear y) m d with
            | .ok => .ret (some (fmtDate (expandYear y) m d))
            | .valueError => .ret none
            | .overflowError => .raisedOverflow
          | _, _, _ => .ret none
        else .ret none
      | [p0, p1] =>
        -- MM-DD branch: range-check before `datetime`
        match pyInt p0, pyInt p1 with
        | some m, some d =>
          if 1 ≤ m ∧ m ≤ 12 ∧ 1 ≤ d ∧ d ≤ 31 then
            match datetimeOutcome todayY m d with
            | .ok => .ret (some (fmtDate todayY m d))
            | .valueError => .ret none
            | .overflowError => .raisedOverflow
          else .ret none
        | _, _ => .ret none
      | _ => .ret none

def parse_date_input_exc (todayY todayM : Nat) (raw : List Char) : PyCallResult :=
  if raw.isEmpty then .ret none
  else parseStrippedExc todayY todayM (pyStrip raw)

example : parse_date_input_exc 2024 6 ("2024-01-15".toList)
    = .ret (some ("2024-01-15".toList)) := by decide
example : parse_date_input_exc 2024 6 ("02-30".toList) = .ret none := by decide
example : parse_date_input_exc 2024 6 ("2024-9999999999-01".toList)
    = .raisedOverflow := by decide
example : parse_date_input_exc 2024 6 ("24-01-2147483648".toList)
    = .raisedOverflow := by decide
example : parse_date_input_exc 2024 6 ("2024-12-2147483647".toList)
    = .ret none := by decide

/-! ### Expense records and the duplicate-reconciliation workflow -/

/-- An expense record as built in `add_expense` (src/app.py lines 531-536). -/
structure Expense where
  amount : Rat
  description : List Char
  category : List Char
  date : List Char
deriving DecidableEq, Repr

/-- The duplicate-equality key of the latest revision: date, category and
amount, with the description deliberately ignored (src/app.py lines 916-920). -/
def dupKey (e : Expense) : List Char × List Char × Rat := (e.date, e.category, e.amount)

/-- The duplicate scan `add_expense` runs before inserting a candidate
(src/app.py lines 539-544): the existing records whose date, category and
amount all equal the candidate's. -/
def findDuplicates (candidate : Expense) (existing : List Expense) : List Expense :=
  existing.filter fun e =>
    decide (e.date = candidate.date ∧ e.category = candidate.category ∧
      e.amount = candidate.amount)

/-- The two recognized equality strategies.  Only `WITHOUT_DESCRIPTION` appears
in src/app.py (the latest revision); `WITH_DESCRIPTION` is the earlier
revisions' narrower key, kept as a configuration option. -/
inductive EqualityStrategy where
  | WITH_DESCRIPTION
  | WITHOUT_DESCRIPTION
deriving DecidableEq, Repr

/-- Modelled from the spec: the normalized description used by the
`WITH_DESCRIPTION` strategy, "case-insensitive trimmed description". -/
def normalizeDescription (s : List Char) : List Char := (pyStrip s).map Char.toLower

/-- Modelled from the spec: `checkBeforeAdd(candidate, existingRecords,
strategy)`.  Under `WITHOUT_DESCRIPTION` this is exactly the scan hard-coded in
`add_expense`; under `WITH_DESCRIPTION` (absent from src/app.py) the key
additionally includes the normalized description, per the spec's description of
the earlier revisions' behaviour. -/
def checkBeforeAdd (strategy : EqualityStrategy) (candidate : Expense)
    (existing : List Expense) : List Expense :=
  match strategy with
  | .WITHOUT_DESCRIPTION => findDuplicates candidate existing
  | .WITH_DESCRIPTION =>
    existing.filter fun e =>
      decide (dupKey e = dupKey candidate ∧
        normalizeDescription e.description = normalizeDescription candidate.description)

/-- Outcome of submitting a candidate in `add_expense` (src/app.py lines
538-586): either appended at once (no matches), or held pending with the match
list while the collection stays unchanged. -/
inductive AddOutcome where
  | added (updated : List Expense)
  | duplicatesPending (candidate : Expense) (matchList : List Expense)
      (unchanged : List Expense)
deriving DecidableEq, Repr

/-- The submit step of `add_expense`: scan first, insert only when no match. -/
def addExpenseSubmit (existing : List Expense) (candidate : Expense) : AddOutcome :=
  let dups := findDuplicates candidate existing
  if dups.isEmpty then .added (existing ++ [candidate])
  else .duplicatesPending candidate dups existing

/-- The explicit caller decision resolving a pending duplicate
(src/app.py lines 557-574): add anyway, or cancel. -/
inductive AddDecision where
  | confirmAdd
  | cancel
deriving DecidableEq, Repr

/-- Resolution of the pending state: "Add Anyway" appends the candidate
unconditionally (`st.session_state.expenses.append(expense)`), "Cancel" leaves
the collection untouched. -/
def resolvePending (existing : List Expense) (candidate : Expense) :
    AddDecision → List Expense
  | .confirmAdd => existing ++ [candidate]
  | .cancel => existing

/-! ### Batch duplicate scan (`remove_duplicates`, src/app.py lines 903-990) -/

/-- Keys of the batch scan. -/
abbrev DupKey := List Char × List Char × Rat

/-- Groups of the batch scan: key paired with the `(original index, record)`
members in insertion order, keys in first-occurrence order (a Python dict). -/
abbrev DupGroups := List (DupKey × List (Nat × Expense))

/-- One step of `duplicate_groups[key].append((i, expense))` preceded by
`if key not in duplicate_groups: duplicate_groups[key] = []`. -/
def addToGroups (gs : DupGroups) (k : DupKey) (entry : Nat × Expense) : DupGroups :=
  match gs with
  | [] => [(k, [entry])]
  | (k₀, es) :: rest =>
    if k₀ = k then (k₀, es ++ [entry]) :: rest
    else (k₀, es) :: addToGroups rest k entry

/-- The grouping loop of `remove_duplicates` over already-enumerated entries. -/
def buildGroups (entries : List (Nat × Expense)) : DupGroups :=
  entries.foldl (fun gs p => addToGroups gs (dupKey p.2) p) []

/-- `duplicate_groups` (src/app.py lines 912-924): every record grouped by its
key, each tagged with its original index from `enumerate`. -/
def duplicate_groups (expenses : List Expense) : DupGroups :=
  buildGroups expenses.enum

/-- `actual_duplicates` (src/app.py line 927): only the groups with more than
one member. -/
def actual_duplicates (expenses : List Expense) : DupGroups :=
  (duplicate_groups expenses).filter fun g => decide (1 < g.2.length)

/-- The "Select All Duplicates" action (src/app.py lines 965-970): within each
group keep the first member and select every other member's original index. -/
def selectAllDuplicates (expenses : List Expense) : List Nat :=
  (actual_duplicates expenses).flatMap fun g => (g.2.drop 1).map Prod.fst

/-- The "Delete Selected" action (src/app.py lines 981-985): sort the selected
index set in descending order, then remove position by position.  Python's
`list.pop(idx)` is modelled by `List.eraseIdx` (out-of-range indices never
reach it under the claims' hypotheses). -/
def removeIndices (expenses : List Expense) (selected : List Nat) : List Expense :=
  ((selected.dedup).insertionSort (· ≥ ·)).foldl List.eraseIdx expenses

/-! ### Concrete records used by the spec's worked examples -/

/-- The existing record `{2024-01-15, groceries, 50.0, "milk"}`. -/
def milkRecord : Expense :=
  ⟨50, "milk".toList, "groceries".toList, "2024-01-15".toList⟩

/-- The candidate `{2024-01-15, groceries, 50.0, "bread"}`: same key as
`milkRecord`, different description. -/
def breadCandidate : Expense :=
  ⟨50, "bread".toList, "groceries".toList, "2024-01-15".toList⟩

/-- A record whose key is unique in the examples. -/
def busRecord : Expense :=
  ⟨20, "bus".toList, "transportation".toList, "2024-01-16".toList⟩

example : findDuplicates breadCandidate [milkRecord] = [milkRecord] := by decide
example : checkBeforeAdd .WITH_DESCRIPTION breadCandidate [milkRecord] = [] := by decide
example : checkBeforeAdd .WITHOUT_DESCRIPTION breadCandidate [milkRecord] = [milkRecord] := by
  decide
example : actual_duplicates [milkRecord, busRecord, breadCandidate] =
    [(dupKey milkRecord, [(0, milkRecord), (2, breadCandidate)])] := by decide
example : selectAllDuplicates [milkRecord, busRecord, breadCandidate] = [2] := by decide
example : removeIndices [milkRecord, busRecord, breadCandidate] [2, 0] = [busRecord] := by
  decide
example : removeIndices [milkRecord, busRecord, breadCandidate] [0, 2] = [busRecord] := by
  decide

/-! ### Helper lemmas about the string primitives -/

theorem isSpaceCh_eq_false_of_isDigitCh {c : Char} (h : isDigitCh c = true) :
    isSpaceCh c = false := by
  simp only [isDigitCh, decide_eq_true_eq] at h
  simp only [isSpaceCh, decide_eq_false_iff_not]
  omega

theorem ne_dash_of_isDigitCh {c : Char} (h : isDigitCh c = true) : c ≠ '-' := by
  rintro rfl
  exact absurd h (by decide)

theorem dropWhile_eq_self_of_none {p : Char → Bool} {s : List Char}
    (h : ∀ c ∈ s, p c = false) : s.dropWhile p = s := by
  cases s with
  | nil => rfl
  | cons c cs => simp [List.dropWhile_cons, h c (by simp)]

theorem pyStrip_eq_self {s : List Char} (h : ∀ c ∈ s, isSpaceCh c = false) :
    pyStrip s = s := by
  unfold pyStrip
  rw [dropWhile_eq_self_of_none h,
    dropWhile_eq_self_of_none (fun c hc => h c (by simpa using hc)),
    List.reverse_reverse]

theorem pyStrip_of_digits_dashes {s : List Char}
    (h : ∀ c ∈ s, isDigitCh c = true ∨ c = '-') : pyStrip s = s := by
  refine pyStrip_eq_self fun c hc => ?_
  rcases h c hc with hd | rfl
  · exact isSpaceCh_eq_false_of_isDigitCh hd
  · decide

theorem pyIsDigit_iff {s : List Char} :
    pyIsDigit s = true ↔ s ≠ [] ∧ ∀ c ∈ s, isDigitCh c = true := by
  cases s with
  | nil => simp [pyIsDigit]
  | cons c cs => simp [pyIsDigit, List.all_eq_true]

theorem pyIsDigit_eq_false_of_dash {s : List Char} (h : ('-' : Char) ∈ s) :
    pyIsDigit s = false := by
  cases hpd : pyIsDigit s with
  | false => rfl
  | true => exact absurd ((pyIsDigit_iff.mp hpd).2 '-' h) (by decide)

theorem splitDash_of_no_dash {s : List Char} (h : ∀ c ∈ s, c ≠ '-') :
    splitDash s = [s] := by
  induction s with
  | nil => rfl
  | cons c cs ih =>
    have hc : c ≠ '-' := h c (by simp)
    rw [splitDash, if_neg hc, ih fun x hx => h x (by simp [hx])]

theorem splitDash_append {a : List Char} (r : List Char) (h : ∀ c ∈ a, c ≠ '-') :
    splitDash (a ++ '-' :: r) = a :: splitDash r := by
  induction a with
  | nil => simp [splitDash]
  | cons c cs ih =>
    have hc : c ≠ '-' := h c (by simp)
    rw [List.cons_append, splitDash, if_neg hc, ih fun x hx => h x (by simp [hx])]

theorem digitVal_le_nine {c : Char} (h : isDigitCh c = true) : digitVal c ≤ 9 := by
  simp only [isDigitCh, decide_eq_true_eq] at h
  simp only [digitVal]
  omega

theorem digitsVal_lt_100 {s : List Char} (hlen : s.length ≤ 2)
    (hdig : ∀ c ∈ s, isDigitCh c = true) : digitsVal s < 100 := by
  rcases s with _ | ⟨c1, s⟩
  · simp [digitsVal]
  rcases s with _ | ⟨c2, s⟩
  · have := digitVal_le_nine (hdig c1 (by simp))
    simp only [digitsVal, List.foldl]
    omega
  rcases s with _ | ⟨c3, s⟩
  · have h1 := digitVal_le_nine (hdig c1 (by simp))
    have h2 := digitVal_le_nine (hdig c2 (by simp))
    simp only [digitsVal, List.foldl]
    omega
  · simp at hlen

/-! ### Branch lemmas for `parse_date_input` -/

theorem parse_day_only (ty tm : Nat) {s : List Char} (hd : pyIsDigit s = true)
    (hl : s.length ≤ 2) :
    parse_date_input ty tm s =
      if 1 ≤ digitsVal s ∧ digitsVal s ≤ 31 then
        (if validDate ty tm (digitsVal s) = true then
          some (fmtDate ty tm (digitsVal s))
        else none)
      else none := by
  obtain ⟨hne, hall⟩ := pyIsDigit_iff.mp hd
  have hstrip : pyStrip s = s :=
    pyStrip_eq_self fun c hc => isSpaceCh_eq_false_of_isDigitCh (hall c hc)
  have hempty : s.isEmpty = false := by
    cases s
    · exact absurd rfl hne
    · rfl
  unfold parse_date_input
  rw [if_neg (by simp [hempty]), hstrip]
  by_cases hr : 1 ≤ digitsVal s ∧ digitsVal s ≤ 31
  · unfold parseStripped
    rw [if_pos ⟨hd, hl, hr.1, hr.2⟩, if_pos hr]
  · unfold parseStripped
    rw [if_neg fun hcon => hr ⟨hcon.2.2.1, hcon.2.2.2⟩,
      splitDash_of_no_dash fun c hc => ne_dash_of_isDigitCh (hall c hc), if_neg hr]

theorem parse_three_parts (ty tm : Nat) {p0 p1 p2 : List Char}
    (h0 : ∀ c ∈ p0, c ≠ '-') (h1 : ∀ c ∈ p1, c ≠ '-') (h2 : ∀ c ∈ p2, c ≠ '-')
    (hs : pyStrip (p0 ++ '-' :: (p1 ++ '-' :: p2)) = p0 ++ '-' :: (p1 ++ '-' :: p2)) :
    parse_date_input ty tm (p0 ++ '-' :: (p1 ++ '-' :: p2)) =
      if p0.length = 4 then
        match pyInt p0, pyInt p1, pyInt p2 with
        | some y, some m, some d =>
          if validDate y m d = true then some (fmtDate y m d) else none
        | _, _, _ => none
      else if p0.length ≤ 2 then
        match pyInt p0, pyInt p1, pyInt p2 with
        | some y, some m, some d =>
          if validDate (expandYear y) m d = true then
            some (fmtDate (expandYear y) m d)
          else none
        | _, _, _ => none
      else none := by
  have hpd : pyIsDigit (p0 ++ '-' :: (p1 ++ '-' :: p2)) = false :=
    pyIsDigit_eq_false_of_dash (by simp)
  have hempty : (p0 ++ '-' :: (p1 ++ '-' :: p2)).isEmpty = false := by
    cases p0 <;> rfl
  unfold parse_date_input
  rw [if_neg (by simp [hempty]), hs]
  unfold parseStripped
  rw [if_neg (by simp [hpd]), splitDash_append _ h0, splitDash_append _ h1,
    splitDash_of_no_dash h2]

theorem parse_two_parts (ty tm : Nat) {p0 p1 : List Char}
    (h0 : ∀ c ∈ p0, c ≠ '-') (h1 : ∀ c ∈ p1, c ≠ '-')
    (hs : pyStrip (p0 ++ '-' :: p1) = p0 ++ '-' :: p1) :
    parse_date_input ty tm (p0 ++ '-' :: p1) =
      match pyInt p0, pyInt p1 with
      | some m, some d =>
        if 1 ≤ m ∧ m ≤ 12 ∧ 1 ≤ d ∧ d ≤ 31 then
          (if validDate ty m d = true then some (fmtDate ty m d) else none)
        else none
      | _, _ => none := by
  have hpd : pyIsDigit (p0 ++ '-' :: p1) = false :=
    pyIsDigit_eq_false_of_dash (by simp)
  have hempty : (p0 ++ '-' :: p1).isEmpty = false := by cases p0 <;> rfl
  unfold parse_date_input
  rw [if_neg (by simp [hempty]), hs]
  unfold parseStripped
  rw [if_neg (by simp [hpd]), splitDash_append _ h0, splitDash_of_no_dash h1]

theorem parse_two_parts_of_ints (ty tm : Nat) {p0 p1 : List Char} {m d : Nat}
    (h0 : ∀ c ∈ p0, c ≠ '-') (h1 : ∀ c ∈ p1, c ≠ '-')
    (hs : pyStrip (p0 ++ '-' :: p1) = p0 ++ '-' :: p1)
    (hm : pyInt p0 = some m) (hd : pyInt p1 = some d) :
    parse_date_input ty tm (p0 ++ '-' :: p1) =
      if 1 ≤ m ∧ m ≤ 12 ∧ 1 ≤ d ∧ d ≤ 31 then
        (if validDate ty m d = true then some (fmtDate ty m d) else none)
      else none := by
  rw [parse_two_parts ty tm h0 h1 hs, hm, hd]

theorem parse_three_parts_y4 (ty tm : Nat) {p0 p1 p2 : List Char} {y m d : Nat}
    (h0 : ∀ c ∈ p0, c ≠ '-') (h1 : ∀ c ∈ p1, c ≠ '-') (h2 : ∀ c ∈ p2, c ≠ '-')
    (hs : pyStrip (p0 ++ '-' :: (p1 ++ '-' :: p2)) = p0 ++ '-' :: (p1 ++ '-' :: p2))
    (hlen : p0.length = 4)
    (hy : pyInt p0 = some y) (hm : pyInt p1 = some m) (hd : pyInt p2 = some d) :
    parse_date_input ty tm (p0 ++ '-' :: (p1 ++ '-' :: p2)) =
      if validDate y m d = true then some (fmtDate y m d) else none := by
  rw [parse_three_parts ty tm h0 h1 h2 hs, if_pos hlen, hy, hm, hd]

theorem parse_three_parts_y2 (ty tm : Nat) {p0 p1 p2 : List Char} {y m d : Nat}
    (h0 : ∀ c ∈ p0, c ≠ '-') (h1 : ∀ c ∈ p1, c ≠ '-') (h2 : ∀ c ∈ p2, c ≠ '-')
    (hs : pyStrip (p0 ++ '-' :: (p1 ++ '-' :: p2)) = p0 ++ '-' :: (p1 ++ '-' :: p2))
    (hlen : p0.length ≤ 2)
    (hy : pyInt p0 = some y) (hm : pyInt p1 = some m) (hd : pyInt p2 = some d) :
    parse_date_input ty tm (p0 ++ '-' :: (p1 ++ '-' :: p2)) =
      if validDate (expandYear y) m d = true then
        some (fmtDate (expandYear y) m d)
      else none := by
  rw [parse_three_parts ty tm h0 h1 h2 hs, if_neg (by omega), if_pos hlen, hy, hm, hd]

theorem no_dash_of_pyIsDigit {s : List Char} (h : pyIsDigit s = true) :
    ∀ c ∈ s, c ≠ '-' :=
  fun c hc => ne_dash_of_isDigitCh ((pyIsDigit_iff.mp h).2 c hc)

theorem pyInt_of_pyIsDigit {s : List Char} (h : pyIsDigit s = true) :
    pyInt s = some (digitsVal s) := by
  unfold pyInt
  rw [if_pos h]

/-! ### Claim theorems for the date parser -/

/-- C4: for an all-digit input of at most 2 characters denoting a day `D`,
the parser returns the reference year and month combined with `D` (zero-padded)
exactly when `1 ≤ D ≤ 31` and `D` exists in the reference month, and a parse
error (`none`) when `D` is out of `1..31` or does not exist in that month. -/
theorem claim_C4_day_only_rule (ty tm : Nat) (s : List Char)
    (hdig : pyIsDigit s = true) (hlen : s.length ≤ 2)
    (hty : 1 ≤ ty ∧ ty ≤ 9999) (htm : 1 ≤ tm ∧ tm ≤ 12) :
    (1 ≤ digitsVal s ∧ digitsVal s ≤ 31 ∧ digitsVal s ≤ daysInMonth ty tm →
      parse_date_input ty tm s = some (fmtDate ty tm (digitsVal s)))
    ∧ (digitsVal s = 0 ∨ 31 < digitsVal s ∨ daysInMonth ty tm < digitsVal s →
      parse_date_input ty tm s = none) := by
  rw [parse_day_only ty tm hdig hlen]
  constructor
  · rintro ⟨h1, h2, h3⟩
    rw [if_pos ⟨h1, h2⟩, if_pos]
    simp only [validDate, decide_eq_true_eq]
    omega
  · intro h
    by_cases hr : 1 ≤ digitsVal s ∧ digitsVal s ≤ 31
    · rw [if_pos hr, if_neg]
      simp only [validDate, decide_eq_true_eq]
      omega
    · rw [if_neg hr]

/-- C4 witness: with reference date June 2024 (30 days), day string `"15"`
normalizes to `2024-06-15` and day string `"31"` is rejected. -/
theorem claim_C4_day_only_rule_witness :
    (pyIsDigit ("15".toList) = true ∧ ("15".toList).length ≤ 2
      ∧ (1 ≤ 2024 ∧ 2024 ≤ 9999) ∧ (1 ≤ 6 ∧ 6 ≤ 12)
      ∧ parse_date_input 2024 6 ("15".toList) = some ("2024-06-15".toList))
    ∧ parse_date_input 2024 6 ("31".toList) = none := by
  refine ⟨⟨by decide, by decide, by decide, by decide, ?_⟩, ?_⟩
  · have h := (claim_C4_day_only_rule 2024 6 ("15".toList) (by decide) (by decide)
      (by decide) (by decide)).1 (by decide)
    exact h.trans (by decide)
  · exact (claim_C4_day_only_rule 2024 6 ("31".toList) (by decide) (by decide)
      (by decide) (by decide)).2 (by decide)

/-- C5: a dash-separated all-digit date `p0-p1-p2` forming a real calendar
date normalizes to the canonical zero-padded form regardless of zero-padding
of the input parts: a 4-character first part is taken as the year as-is, and a
1-2 character first part has 2000 added to its value. -/
theorem claim_C5_dashed_date_normalization (ty tm : Nat) (p0 p1 p2 : List Char)
    (h0 : pyIsDigit p0 = true) (h1 : pyIsDigit p1 = true) (h2 : pyIsDigit p2 = true) :
    (p0.length = 4 → validDate (digitsVal p0) (digitsVal p1) (digitsVal p2) = true →
      parse_date_input ty tm (p0 ++ '-' :: (p1 ++ '-' :: p2))
        = some (fmtDate (digitsVal p0) (digitsVal p1) (digitsVal p2)))
    ∧ (p0.length ≤ 2 →
        validDate (2000 + digitsVal p0) (digitsVal p1) (digitsVal p2) = true →
      parse_date_input ty tm (p0 ++ '-' :: (p1 ++ '-' :: p2))
        = some (fmtDate (2000 + digitsVal p0) (digitsVal p1) (digitsVal p2))) := by
  have a0 := (pyIsDigit_iff.mp h0).2
  have a1 := (pyIsDigit_iff.mp h1).2
  have a2 := (pyIsDigit_iff.mp h2).2
  have hs : pyStrip (p0 ++ '-' :: (p1 ++ '-' :: p2)) = p0 ++ '-' :: (p1 ++ '-' :: p2) := by
    refine pyStrip_of_digits_dashes fun c hc => ?_
    rcases List.mem_append.mp hc with hc0 | hc'
    · exact Or.inl (a0 c hc0)
    rcases List.mem_cons.mp hc' with rfl | hc''
    · exact Or.inr rfl
    rcases List.mem_append.mp hc'' with hc1 | hc'''
    · exact Or.inl (a1 c hc1)
    rcases List.mem_cons.mp hc''' with rfl | hc2
    · exact Or.inr rfl
    · exact Or.inl (a2 c hc2)
  constructor
  · intro hlen hv
    rw [parse_three_parts_y4 ty tm (no_dash_of_pyIsDigit h0) (no_dash_of_pyIsDigit h1)
      (no_dash_of_pyIsDigit h2) hs hlen (pyInt_of_pyIsDigit h0) (pyInt_of_pyIsDigit h1)
      (pyInt_of_pyIsDigit h2), if_pos hv]
  · intro hlen hv
    have hlt : digitsVal p0 < 100 := digitsVal_lt_100 hlen a0
    have hexp : expandYear (digitsVal p0) = 2000 + digitsVal p0 := by
      unfold expandYear
      rw [if_pos hlt]
    rw [parse_three_parts_y2 ty tm (no_dash_of_pyIsDigit h0) (no_dash_of_pyIsDigit h1)
      (no_dash_of_pyIsDigit h2) hs hlen (pyInt_of_pyIsDigit h0) (pyInt_of_pyIsDigit h1)
      (pyInt_of_pyIsDigit h2), hexp, if_pos hv]

/-- C5 witness: `"24-1-15"` normalizes to `"2024-01-15"`, and `"2024-01-15"`
normalizes to itself. -/
theorem claim_C5_dashed_date_normalization_witness :
    parse_date_input 2024 6 ("24-1-15".toList) = some ("2024-01-15".toList)
    ∧ parse_date_input 2024 6 ("2024-01-15".toList) = some ("2024-01-15".toList) := by
  constructor
  · have h := (claim_C5_dashed_date_normalization 2024 6 "24".toList "1".toList
      "15".toList (by decide) (by decide) (by decide)).2 (by decide) (by decide)
    exact h.trans (by decide)
  · have h := (claim_C5_dashed_date_normalization 2024 6 "2024".toList "01".toList
      "15".toList (by decide) (by decide) (by decide)).1 (by decide) (by decide)
    exact h.trans (by decide)

/-- C10: a dash-split first part of at most 2 characters that `int` accepts
always has value under 100, so the two-digit-year expansion always takes the
`2000 + year` branch (never the defensive as-is branch) and the expanded year
lies in `[2000, 2099]`. -/
theorem claim_C10_short_year_expansion (p0 : List Char) (y : Nat)
    (hlen : p0.length ≤ 2) (hy : pyInt p0 = some y) :
    y < 100 ∧ expandYear y = 2000 + y
      ∧ 2000 ≤ expandYear y ∧ expandYear y ≤ 2099 := by
  unfold pyInt at hy
  by_cases hpd : pyIsDigit p0 = true
  · rw [if_pos hpd] at hy
    have hval : digitsVal p0 = y := Option.some.inj hy
    have h100 : digitsVal p0 < 100 := digitsVal_lt_100 hlen (pyIsDigit_iff.mp hpd).2
    have hy100 : y < 100 := hval ▸ h100
    have hexp : expandYear y = 2000 + y := by
      unfold expandYear
      rw [if_pos hy100]
    exact ⟨hy100, hexp, by omega, by omega⟩
  · rw [if_neg hpd] at hy
    cases hy

/-- C10 witness: the two-character part `"24"` expands to year 2024. -/
theorem claim_C10_short_year_expansion_witness :
    ("24".toList).length ≤ 2 ∧ pyInt ("24".toList) = some 24
      ∧ 24 < 100 ∧ expandYear 24 = 2000 + 24
      ∧ 2000 ≤ expandYear 24 ∧ expandYear 24 ≤ 2099 :=
  ⟨by decide, by decide,
    claim_C10_short_year_expansion ("24".toList) 24 (by decide) (by decide)⟩

/-- C6: an input splitting on `-` into exactly 2 parts is interpreted as
month-day combined with the reference year, and is rejected unless the month is
in `[1,12]`, the day is in `[1,31]`, and the resulting date is a real calendar
date; in particular `"02-30"` fails for every reference year (leap or not) and
`"13-01"` always fails. -/
theorem claim_C6_month_day_validation (ty tm : Nat) (p0 p1 : List Char)
    (h0 : ∀ c ∈ p0, c ≠ '-') (h1 : ∀ c ∈ p1, c ≠ '-')
    (hs : pyStrip (p0 ++ '-' :: p1) = p0 ++ '-' :: p1) :
    (∀ out, parse_date_input ty tm (p0 ++ '-' :: p1) = some out →
      ∃ m d, pyInt p0 = some m ∧ pyInt p1 = some d ∧
        1 ≤ m ∧ m ≤ 12 ∧ 1 ≤ d ∧ d ≤ 31 ∧ validDate ty m d = true
        ∧ out = fmtDate ty m d)
    ∧ (∀ m d, pyInt p0 = some m → pyInt p1 = some d →
        1 ≤ m → m ≤ 12 → 1 ≤ d → d ≤ 31 → validDate ty m d = true →
        parse_date_input ty tm (p0 ++ '-' :: p1) = some (fmtDate ty m d))
    ∧ parse_date_input ty tm ("02-30".toList) = none
    ∧ parse_date_input ty tm ("13-01".toList) = none := by
  refine ⟨?_, ?_, ?_, ?_⟩
  · intro out hout
    rcases hq0 : pyInt p0 with _ | m
    · rw [parse_two_parts ty tm h0 h1 hs, hq0] at hout
      cases hout
    rcases hq1 : pyInt p1 with _ | d
    · rw [parse_two_parts ty tm h0 h1 hs, hq0, hq1] at hout
      cases hout
    rw [parse_two_parts_of_ints ty tm h0 h1 hs hq0 hq1] at hout
    by_cases hrange : 1 ≤ m ∧ m ≤ 12 ∧ 1 ≤ d ∧ d ≤ 31
    · rw [if_pos hrange] at hout
      by_cases hv : validDate ty m d = true
      · rw [if_pos hv] at hout
        exact ⟨m, d, rfl, rfl, hrange.1, hrange.2.1, hrange.2.2.1, hrange.2.2.2,
          hv, (Option.some.inj hout).symm⟩
      · rw [if_neg hv] at hout
        cases hout
    · rw [if_neg hrange] at hout
      cases hout
  · intro m d hq0 hq1 hm1 hm2 hd1 hd2 hv
    rw [parse_two_parts_of_ints ty tm h0 h1 hs hq0 hq1,
      if_pos ⟨hm1, hm2, hd1, hd2⟩, if_pos hv]
  · rw [show ("02-30".toList) = (['0','2'] ++ '-' :: ['3','0']) from rfl,
      parse_two_parts_of_ints ty tm (by decide) (by decide) (by decide)
        (show pyInt ['0','2'] = some 2 from rfl)
        (show pyInt ['3','0'] = some 30 from rfl),
      if_pos (by omega), if_neg]
    simp only [validDate, decide_eq_true_eq]
    intro hcon
    have h30 := hcon.2.2.2.2.2
    cases hL : isLeapYear ty <;> simp [daysInMonth, hL] at h30
  · rw [show ("13-01".toList) = (['1','3'] ++ '-' :: ['0','1']) from rfl,
      parse_two_parts_of_ints ty tm (by decide) (by decide) (by decide)
        (show pyInt ['1','3'] = some 13 from rfl)
        (show pyInt ['0','1'] = some 1 from rfl),
      if_neg (by omega)]

/-- C6 witness: with reference year 2024, `"01-15"` is accepted as January 15
while `"02-30"` and `"13-01"` are rejected. -/
theorem claim_C6_month_day_validation_witness :
    parse_date_input 2024 6 ("01-15".toList) = some ("2024-01-15".toList)
    ∧ parse_date_input 2024 6 ("02-30".toList) = none
    ∧ parse_date_input 2024 6 ("13-01".toList) = none := by
  have h := claim_C6_month_day_validation 2024 6 ['0', '1'] ['1', '5']
    (by decide) (by decide) (by decide)
  refine ⟨?_, h.2.2.1, h.2.2.2⟩
  have hp := h.2.1 1 15 (by decide) (by decide) (by decide) (by decide)
    (by decide) (by decide) (by decide)
  exact hp.trans (by decide)

theorem parseStripped_none_or_valid (ty tm : Nat) (s : List Char) :
    parseStripped ty tm s = none ∨
      ∃ y m d, validDate y m d = true
        ∧ parseStripped ty tm s = some (fmtDate y m d) := by
  unfold parseStripped
  repeat' split
  all_goals first
    | exact Or.inl rfl
    | (rename_i hv; exact Or.inr ⟨_, _, _, hv, rfl⟩)

/-! ### Relating the normal-return model to the exception-aware model -/

theorem daysInMonth_le_31 (y m : Nat) : daysInMonth y m ≤ 31 := by
  unfold daysInMonth
  split_ifs <;> omega

theorem validDate_bounds {y m d : Nat} (h : validDate y m d = true) :
    y ≤ 2147483647 ∧ m ≤ 2147483647 ∧ d ≤ 2147483647 := by
  simp only [validDate, decide_eq_true_eq] at h
  have := daysInMonth_le_31 y m
  omega

theorem datetimeOutcome_ok_iff (y m d : Nat) :
    datetimeOutcome y m d = .ok ↔ validDate y m d = true := by
  unfold datetimeOutcome
  by_cases hb : y ≤ 2147483647 ∧ m ≤ 2147483647 ∧ d ≤ 2147483647
  · rw [if_pos hb]
    by_cases hv : validDate y m d = true
    · rw [if_pos hv]
      simp [hv]
    · rw [if_neg hv]
      simp [hv]
  · rw [if_neg hb]
    constructor
    · intro h
      cases h
    · intro hv
      exact absurd (validDate_bounds hv) hb

theorem datetimeOutcome_valueError {y m d : Nat}
    (h : datetimeOutcome y m d = .valueError) : validDate y m d = false := by
  by_cases hv : validDate y m d = true
  · rw [(datetimeOutcome_ok_iff y m d).mpr hv] at h
    cases h
  · simpa using hv

theorem datetimeOutcome_overflow {y m d : Nat}
    (h : datetimeOutcome y m d = .overflowError) : validDate y m d = false := by
  by_cases hv : validDate y m d = true
  · rw [(datetimeOutcome_ok_iff y m d).mpr hv] at h
    cases h
  · simpa using hv

/-- The normal-return value of an exception-aware result; the raising outcome
has no return value (the `none` here is never compared against it, see
`parseStripped_eq_retValue` for how the two models line up). -/
def retValue : PyCallResult → Option (List Char)
  | .ret o => o
  | .raisedOverflow => none

/-- `parseStripped` is the normal-return projection of the exception-aware
embedding: both walk the same branches, and wherever `parseStrippedExc`
returns normally they agree. -/
theorem parseStripped_eq_retValue (ty tm : Nat) (s : List Char) :
    parseStripped ty tm s = retValue (parseStrippedExc ty tm s) := by
  unfold parseStripped parseStrippedExc
  by_cases hg : pyIsDigit s = true ∧ s.length ≤ 2 ∧ 1 ≤ digitsVal s ∧ digitsVal s ≤ 31
  · rw [if_pos hg, if_pos hg]
    cases hdo : datetimeOutcome ty tm (digitsVal s) with
    | ok => rw [if_pos ((datetimeOutcome_ok_iff _ _ _).mp hdo)]; rfl
    | valueError => rw [if_neg (by simp [datetimeOutcome_valueError hdo])]; rfl
    | overflowError => rw [if_neg (by simp [datetimeOutcome_overflow hdo])]; rfl
  · rw [if_neg hg, if_neg hg]
    rcases hsp : splitDash s with _ | ⟨a, _ | ⟨b, _ | ⟨c, _ | ⟨e4, t⟩⟩⟩⟩ <;> try rfl
    · -- two parts [a, b]: the MM-DD branch
      simp only []
      rcases hpa : pyInt a with _ | m
      · rfl
      rcases hpb : pyInt b with _ | d
      · rfl
      simp only []
      by_cases hr : 1 ≤ m ∧ m ≤ 12 ∧ 1 ≤ d ∧ d ≤ 31
      · rw [if_pos hr, if_pos hr]
        cases hdo : datetimeOutcome ty m d with
        | ok => rw [if_pos ((datetimeOutcome_ok_iff _ _ _).mp hdo)]; rfl
        | valueError => rw [if_neg (by simp [datetimeOutcome_valueError hdo])]; rfl
        | overflowError => rw [if_neg (by simp [datetimeOutcome_overflow hdo])]; rfl
      · rw [if_neg hr, if_neg hr]; rfl
    · -- three parts [a, b, c]: the YYYY-MM-DD and YY-MM-DD branches
      simp only []
      by_cases h4 : a.length = 4
      · rw [if_pos h4, if_pos h4]
        rcases hpa : pyInt a with _ | y
        · rfl
        rcases hpb : pyInt b with _ | m
        · rfl
        rcases hpc : pyInt c with _ | d
        · rfl
        simp only []
        cases hdo : datetimeOutcome y m d with
        | ok => rw [if_pos ((datetimeOutcome_ok_iff _ _ _).mp hdo)]; rfl
        | valueError => rw [if_neg (by simp [datetimeOutcome_valueError hdo])]; rfl
        | overflowError => rw [if_neg (by simp [datetimeOutcome_overflow hdo])]; rfl
      · rw [if_neg h4, if_neg h4]
        by_cases h2 : a.length ≤ 2
        · rw [if_pos h2, if_pos h2]
          rcases hpa : pyInt a with _ | y
          · rfl
          rcases hpb : pyInt b with _ | m
          · rfl
          rcases hpc : pyInt c with _ | d
          · rfl
          simp only []
          cases hdo : datetimeOutcome (expandYear y) m d with
          | ok => rw [if_pos ((datetimeOutcome_ok_iff _ _ _).mp hdo)]; rfl
          | valueError => rw [if_neg (by simp [datetimeOutcome_valueError hdo])]; rfl
          | overflowError => rw [if_neg (by simp [datetimeOutcome_overflow hdo])]; rfl
        · rw [if_neg h2, if_neg h2]; rfl

theorem parse_date_input_eq_retValue (ty tm : Nat) (raw : List Char) :
    parse_date_input ty tm raw = retValue (parse_date_input_exc ty tm raw) := by
  unfold parse_date_input parse_date_input_exc
  by_cases he : raw.isEmpty = true
  · rw [if_pos he, if_pos he]; rfl
  · rw [if_neg he, if_neg he]
    exact parseStripped_eq_retValue ty tm (pyStrip raw)

theorem parseStrippedExc_ret {ty tm : Nat} {s : List Char} {o : Option (List Char)}
    (h : parseStrippedExc ty tm s = .ret o) : parseStripped ty tm s = o := by
  rw [parseStripped_eq_retValue, h]
  rfl

theorem parse_date_input_exc_ret {ty tm : Nat} {raw : List Char}
    {o : Option (List Char)} (h : parse_date_input_exc ty tm raw = .ret o) :
    parse_date_input ty tm raw = o := by
  rw [parse_date_input_eq_retValue, h]
  rfl

theorem parseExc_three_parts (ty tm : Nat) {p0 p1 p2 : List Char}
    (h0 : ∀ c ∈ p0, c ≠ '-') (h1 : ∀ c ∈ p1, c ≠ '-') (h2 : ∀ c ∈ p2, c ≠ '-')
    (hs : pyStrip (p0 ++ '-' :: (p1 ++ '-' :: p2)) = p0 ++ '-' :: (p1 ++ '-' :: p2)) :
    parse_date_input_exc ty tm (p0 ++ '-' :: (p1 ++ '-' :: p2)) =
      if p0.length = 4 then
        match pyInt p0, pyInt p1, pyInt p2 with
        | some y, some m, some d =>
          (match datetimeOutcome y m d with
          | .ok => .ret (some (fmtDate y m d))
          | .valueError => .ret none
          | .overflowError => .raisedOverflow)
        | _, _, _ => .ret none
      else if p0.length ≤ 2 then
        match pyInt p0, pyInt p1, pyInt p2 with
        | some y, some m, some d =>
          (match datetimeOutcome (expandYear y) m d with
          | .ok => .ret (some (fmtDate (expandYear y) m d))
          | .valueError => .ret none
          | .overflowError => .raisedOverflow)
        | _, _, _ => .ret none
      else .ret none := by
  have hpd : pyIsDigit (p0 ++ '-' :: (p1 ++ '-' :: p2)) = false :=
    pyIsDigit_eq_false_of_dash (by simp)
  have hempty : (p0 ++ '-' :: (p1 ++ '-' :: p2)).isEmpty = false := by
    cases p0 <;> rfl
  unfold parse_date_input_exc
  rw [if_neg (by simp [hempty]), hs]
  unfold parseStrippedExc
  rw [if_neg (by simp [hpd]), splitDash_append _ h0, splitDash_append _ h1,
    splitDash_of_no_dash h2]

/-- C9: the claim's exception-freedom is the spec's stated contract, but the
code breaks it.  In the 3-part branches `datetime` is guarded only by
`except (ValueError, IndexError)`, and a month above `2^31 - 1` makes the
constructor raise `OverflowError` instead of `ValueError`; that exception
escapes `parse_date_input`.  At the failing input `"2024-9999999999-01"` the
exception-aware embedding raises for every reference date, exactly where the
claim demands a plain parse error (the normal-return projection is `none`
there, which is what a correctly guarded `except` would produce). -/
theorem claim_C9_overflow_escapes (ty tm : Nat) :
    parse_date_input_exc ty tm ("2024-9999999999-01".toList)
      = PyCallResult.raisedOverflow
    ∧ parse_date_input ty tm ("2024-9999999999-01".toList) = none
    ∧ datetimeOutcome 2024 9999999999 1 = DatetimeOutcome.overflowError := by
  have e : ("2024-9999999999-01".toList)
      = (['2', '0', '2', '4'] ++ '-' ::
          (['9', '9', '9', '9', '9', '9', '9', '9', '9', '9'] ++ '-' :: ['0', '1'])) :=
    rfl
  refine ⟨?_, ?_, by decide⟩
  · rw [e, parseExc_three_parts ty tm (by decide) (by decide) (by decide) (by decide),
      if_pos (by decide)]
    decide
  · rw [e, parse_three_parts_y4 ty tm (by decide) (by decide) (by decide) (by decide)
      (by decide) (show pyInt ['2', '0', '2', '4'] = some 2024 from rfl)
      (show pyInt ['9', '9', '9', '9', '9', '9', '9', '9', '9', '9']
        = some 9999999999 from rfl)
      (show pyInt ['0', '1'] = some 1 from rfl), if_neg (by decide)]

/-! ### Claim theorems for the duplicate-reconciliation workflow -/

/-- C1: the pre-insert duplicate check matches exactly the existing records
agreeing with the candidate on date, category and amount — the description
plays no role — and on the spec's worked example it reports 1 match. -/
theorem claim_C1_duplicate_key_ignores_description :
    (∀ (candidate : Expense) (l : List Expense) (e : Expense),
      e ∈ findDuplicates candidate l ↔
        e ∈ l ∧ e.date = candidate.date ∧ e.category = candidate.category
          ∧ e.amount = candidate.amount)
    ∧ (findDuplicates breadCandidate [milkRecord]).length = 1 := by
  refine ⟨fun c l e => ?_, by decide⟩
  simp [findDuplicates, List.mem_filter]

/-- C2: under the `WITH_DESCRIPTION` strategy the duplicate key additionally
includes the case-insensitive trimmed description, so the spec's worked
example (`"milk"` vs `"bread"`) reports 0 matches while the same pair under
`WITHOUT_DESCRIPTION` reports 1. -/
theorem claim_C2_with_description_strategy :
    (∀ (candidate : Expense) (l : List Expense) (e : Expense),
      e ∈ checkBeforeAdd .WITH_DESCRIPTION candidate l ↔
        e ∈ l ∧ dupKey e = dupKey candidate
          ∧ normalizeDescription e.description
            = normalizeDescription candidate.description)
    ∧ checkBeforeAdd .WITH_DESCRIPTION breadCandidate [milkRecord] = []
    ∧ checkBeforeAdd .WITHOUT_DESCRIPTION breadCandidate [milkRecord] = [milkRecord] := by
  refine ⟨fun c l e => ?_, by decide, by decide⟩
  simp [checkBeforeAdd, List.mem_filter]

/-- C8: when the pre-insert check finds matches, the submit step leaves the
collection unchanged and surfaces the candidate and the match list as a
pending decision; confirming appends exactly the candidate at the end, and
cancelling leaves the collection exactly as it was. -/
theorem claim_C8_pending_requires_decision (existing : List Expense)
    (candidate : Expense) (h : findDuplicates candidate existing ≠ []) :
    addExpenseSubmit existing candidate
        = .duplicatesPending candidate (findDuplicates candidate existing) existing
      ∧ resolvePending existing candidate .confirmAdd = existing ++ [candidate]
      ∧ resolvePending existing candidate .cancel = existing := by
  refine ⟨?_, rfl, rfl⟩
  cases hfd : findDuplicates candidate existing with
  | nil => exact absurd hfd h
  | cons a t => simp [addExpenseSubmit, hfd]

/-- C8 witness: submitting the `"bread"` candidate against the `"milk"` record
suspends in the pending state; confirm appends, cancel leaves the state. -/
theorem claim_C8_pending_requires_decision_witness :
    findDuplicates breadCandidate [milkRecord] ≠ []
    ∧ addExpenseSubmit [milkRecord] breadCandidate
        = .duplicatesPending breadCandidate
            (findDuplicates breadCandidate [milkRecord]) [milkRecord]
    ∧ resolvePending [milkRecord] breadCandidate .confirmAdd
        = [milkRecord] ++ [breadCandidate]
    ∧ resolvePending [milkRecord] breadCandidate .cancel = [milkRecord] := by
  have h := claim_C8_pending_requires_decision [milkRecord] breadCandidate (by decide)
  exact ⟨by decide, h.1, h.2.1, h.2.2⟩

/-! ### Deletion by descending indices (claim C3 machinery) -/

/-- Keep the elements whose position (counting from `n`) satisfies `P`. -/
def selectIdx {α : Type} (P : Nat → Bool) : List α → Nat → List α
  | [], _ => []
  | a :: as, n => if P n then a :: selectIdx P as (n + 1) else selectIdx P as (n + 1)

theorem selectIdx_all_true {α : Type} {P : Nat → Bool} :
    ∀ (l : List α) (n : Nat), (∀ j, n ≤ j → P j = true) → selectIdx P l n = l := by
  intro l
  induction l with
  | nil => intro n _; rfl
  | cons a as ih =>
    intro n h
    rw [selectIdx, if_pos (h n le_rfl), ih (n + 1) fun j hj => h j (by omega)]

theorem selectIdx_eraseIdx {α : Type} (P Q : Nat → Bool) :
    ∀ (l : List α) (n d : Nat), d < l.length →
    (∀ j, n ≤ j → j < n + d → P j = Q j) →
    (∀ j, n + d ≤ j → P j = true) →
    Q (n + d) = false →
    (∀ j, n + d < j → Q j = true) →
    selectIdx P (l.eraseIdx d) n = selectIdx Q l n := by
  intro l
  induction l with
  | nil =>
    intro n d hd
    simp at hd
  | cons a as ih =>
    intro n d hd hPQ hP hQ hQ'
    cases d with
    | zero =>
      rw [List.eraseIdx_cons_zero, selectIdx,
        if_neg (by rw [show n = n + 0 by omega, hQ]; simp),
        selectIdx_all_true as n fun j hj => hP j (by omega),
        selectIdx_all_true as (n + 1) fun j hj => hQ' j (by omega)]
    | succ d' =>
      have hPn : P n = Q n := hPQ n le_rfl (by omega)
      rw [List.eraseIdx_cons_succ, selectIdx, selectIdx, hPn]
      have hrec : selectIdx P (as.eraseIdx d') (n + 1) = selectIdx Q as (n + 1) :=
        ih (n + 1) d' (by simpa using hd)
          (fun j h1 h2 => hPQ j (by omega) (by omega))
          (fun j hj => hP j (by omega))
          (by rw [show n + 1 + d' = n + (d' + 1) by omega]; exact hQ)
          (fun j hj => hQ' j (by omega))
      by_cases hq : Q n = true
      · rw [if_pos hq, if_pos hq, hrec]
      · rw [if_neg hq, if_neg hq, hrec]

theorem foldl_eraseIdx_eq_selectIdx {α : Type} :
    ∀ (ds : List Nat) (l : List α), List.Pairwise (· > ·) ds →
    (∀ i ∈ ds, i < l.length) →
    ds.foldl List.eraseIdx l = selectIdx (fun j => decide (j ∉ ds)) l 0 := by
  intro ds
  induction ds with
  | nil =>
    intro l _ _
    rw [List.foldl_nil, selectIdx_all_true l 0 fun j _ => by simp]
  | cons d rest ih =>
    intro l hpw hrange
    have hd : d < l.length := hrange d (by simp)
    have hgt : ∀ x ∈ rest, x < d := fun x hx => (List.pairwise_cons.mp hpw).1 x hx
    have hlen : ∀ i ∈ rest, i < (l.eraseIdx d).length := by
      intro i hi
      rw [List.length_eraseIdx, if_pos hd]
      have := hgt i hi
      omega
    rw [List.foldl_cons, ih (l.eraseIdx d) (List.pairwise_cons.mp hpw).2 hlen]
    apply selectIdx_eraseIdx _ _ l 0 d hd
    · intro j _ hjd
      refine decide_eq_decide.mpr (not_congr ?_)
      simp only [List.mem_cons]
      constructor
      · exact fun h => Or.inr h
      · rintro (rfl | h)
        · omega
        · exact h
    · intro j hj
      simp only [decide_eq_true_eq]
      intro hm
      have := hgt j hm
      omega
    · simp
    · intro j hj
      simp only [decide_eq_true_eq, List.mem_cons]
      rintro (rfl | hm)
      · omega
      · have := hgt j hm
        omega

theorem selectIdx_eq_enumFrom_filter {α : Type} (P : Nat → Bool) :
    ∀ (l : List α) (n : Nat),
    selectIdx P l n = ((List.enumFrom n l).filter fun p => P p.1).map Prod.snd := by
  intro l
  induction l with
  | nil => intro n; rfl
  | cons a as ih =>
    intro n
    rw [selectIdx, List.enumFrom_cons]
    by_cases h : P n = true
    · rw [if_pos h, List.filter_cons_of_pos (by simpa using h), List.map_cons, ih]
    · rw [if_neg h, List.filter_cons_of_neg (by simpa using h), ih]

instance : IsTotal Nat (· ≥ ·) := ⟨fun a b => (Nat.le_total b a).imp id id⟩

instance : IsTrans Nat (· ≥ ·) := ⟨fun _ _ _ h1 h2 => Nat.le_trans h2 h1⟩

/-- C3: deleting a set of in-range original indices (processed in descending
order) removes exactly the records at those positions, preserves the relative
order of the rest, and does not depend on the order the index set is
presented in. -/
theorem claim_C3_delete_by_indices (l : List Expense) (sel : List Nat)
    (hin : ∀ i ∈ sel, i < l.length) :
    removeIndices l sel = (l.enum.filter fun p => decide (p.1 ∉ sel)).map Prod.snd
    ∧ ∀ sel' : List Nat, (∀ i, i ∈ sel' ↔ i ∈ sel) →
        removeIndices l sel' = removeIndices l sel := by
  have main : ∀ s : List Nat, (∀ i ∈ s, i < l.length) →
      removeIndices l s = (l.enum.filter fun p => decide (p.1 ∉ s)).map Prod.snd := by
    intro s hs
    have hperm : (s.dedup.insertionSort (· ≥ ·)).Perm s.dedup :=
      List.perm_insertionSort _ _
    have hsorted : List.Sorted (· ≥ ·) (s.dedup.insertionSort (· ≥ ·)) :=
      List.sorted_insertionSort _ _
    have hnodup : (s.dedup.insertionSort (· ≥ ·)).Nodup :=
      hperm.symm.nodup (List.nodup_dedup s)
    have hmem : ∀ i, i ∈ s.dedup.insertionSort (· ≥ ·) ↔ i ∈ s := fun i =>
      hperm.mem_iff.trans List.mem_dedup
    have hstrict : List.Pairwise (· > ·) (s.dedup.insertionSort (· ≥ ·)) :=
      (hsorted.and hnodup).imp fun h => lt_of_le_of_ne h.1 (Ne.symm h.2)
    have hrange : ∀ i ∈ s.dedup.insertionSort (· ≥ ·), i < l.length :=
      fun i hi => hs i ((hmem i).mp hi)
    have hpred : (fun j => decide (j ∉ s.dedup.insertionSort (· ≥ ·)))
        = fun j => decide (j ∉ s) :=
      funext fun j => decide_eq_decide.mpr (not_congr (hmem j))
    rw [removeIndices, foldl_eraseIdx_eq_selectIdx _ l hstrict hrange, hpred,
      selectIdx_eq_enumFrom_filter, List.enum]
  refine ⟨main sel hin, fun sel' hiff => ?_⟩
  have hpred : (fun p : Nat × Expense => decide (p.1 ∉ sel'))
      = fun p : Nat × Expense => decide (p.1 ∉ sel) :=
    funext fun p => decide_eq_decide.mpr (not_congr (hiff p.1))
  rw [main sel' fun i hi => hin i ((hiff i).mp hi), hpred, main sel hin]

/-- C3 witness: deleting indices `{0, 2}` from a 3-element collection yields
only the original index-1 element, in either presentation order. -/
theorem claim_C3_delete_by_indices_witness :
    (∀ i ∈ [2, 0], i < ([milkRecord, busRecord, breadCandidate] : List Expense).length)
    ∧ removeIndices [milkRecord, busRecord, breadCandidate] [2, 0] = [busRecord]
    ∧ removeIndices [milkRecord, busRecord, breadCandidate] [0, 2]
        = removeIndices [milkRecord, busRecord, breadCandidate] [2, 0] := by
  have h := claim_C3_delete_by_indices [milkRecord, busRecord, breadCandidate] [2, 0]
    (by decide)
  refine ⟨by decide, h.1.trans (by decide), h.2 [0, 2] ?_⟩
  intro i
  simp only [List.mem_cons, List.not_mem_nil, or_false]
  omega

/-! ### Batch duplicate scan (claim C7 machinery) -/

/-- Lookup of a key's member list in a group list (proof-side helper). -/
def groupOf : DupGroups → DupKey → List (Nat × Expense)
  | [], _ => []
  | (k₀, es) :: rest, k => if k₀ = k then es else groupOf rest k

theorem groupOf_addToGroups :
    ∀ (gs : DupGroups) (k k' : DupKey) (e : Nat × Expense),
    groupOf (addToGroups gs k e) k'
      = if k' = k then groupOf gs k' ++ [e] else groupOf gs k' := by
  intro gs
  induction gs with
  | nil =>
    intro k k' e
    by_cases h : k' = k
    · subst h
      simp [addToGroups, groupOf]
    · simp [addToGroups, groupOf, h, Ne.symm h]
  | cons g0 rest ih =>
    obtain ⟨k0, es0⟩ := g0
    intro k k' e
    by_cases h0 : k0 = k
    · subst h0
      rw [addToGroups, if_pos rfl]
      by_cases h' : k0 = k'
      · subst h'
        simp [groupOf]
      · rw [groupOf, if_neg h', groupOf, if_neg h', if_neg fun hc => h' hc.symm]
    · rw [addToGroups, if_neg h0]
      by_cases h' : k0 = k'
      · subst h'
        rw [groupOf, if_pos rfl, if_neg h0, groupOf, if_pos rfl]
      · rw [groupOf, if_neg h', ih, groupOf, if_neg h']

theorem groupOf_foldl :
    ∀ (entries : List (Nat × Expense)) (gs : DupGroups) (k : DupKey),
    groupOf (entries.foldl (fun acc p => addToGroups acc (dupKey p.2) p) gs) k
      = groupOf gs k ++ entries.filter fun p => decide (dupKey p.2 = k) := by
  intro entries
  induction entries with
  | nil =>
    intro gs k
    simp
  | cons p rest ih =>
    intro gs k
    rw [List.foldl_cons, ih, groupOf_addToGroups]
    by_cases h : k = dupKey p.2
    · rw [if_pos h, List.filter_cons_of_pos (by simp [h.symm]), List.append_assoc,
        List.singleton_append]
    · rw [if_neg h,
        List.filter_cons_of_neg (by simp only [decide_eq_true_eq]; exact fun hc => h hc.symm)]

theorem map_fst_addToGroups :
    ∀ (gs : DupGroups) (k : DupKey) (e : Nat × Expense),
    (addToGroups gs k e).map Prod.fst
      = if k ∈ gs.map Prod.fst then gs.map Prod.fst else gs.map Prod.fst ++ [k] := by
  intro gs
  induction gs with
  | nil =>
    intro k e
    simp [addToGroups]
  | cons g0 rest ih =>
    obtain ⟨k0, es0⟩ := g0
    intro k e
    rw [addToGroups]
    by_cases h : k0 = k
    · subst h
      rw [if_pos rfl, if_pos (by simp)]
      rfl
    · rw [if_neg h, List.map_cons, List.map_cons, ih]
      by_cases hm : k ∈ rest.map Prod.fst
      · rw [if_pos hm, if_pos (by simp [hm])]
      · rw [if_neg hm, if_neg (by simp [hm, Ne.symm h]), List.cons_append]

theorem nodup_keys_addToGroups {gs : DupGroups} (k : DupKey) (e : Nat × Expense)
    (h : (gs.map Prod.fst).Nodup) : ((addToGroups gs k e).map Prod.fst).Nodup := by
  rw [map_fst_addToGroups]
  by_cases hm : k ∈ gs.map Prod.fst
  · rw [if_pos hm]
    exact h
  · rw [if_neg hm]
    simp [List.nodup_append, h, hm]

theorem nodup_keys_foldl :
    ∀ (entries : List (Nat × Expense)) (gs : DupGroups),
    (gs.map Prod.fst).Nodup →
    ((entries.foldl (fun acc p => addToGroups acc (dupKey p.2) p) gs).map Prod.fst).Nodup := by
  intro entries
  induction entries with
  | nil => exact fun gs h => h
  | cons p rest ih =>
    intro gs h
    rw [List.foldl_cons]
    exact ih _ (nodup_keys_addToGroups _ _ h)

theorem mem_keys_addToGroups (gs : DupGroups) (k k' : DupKey) (e : Nat × Expense) :
    k' ∈ (addToGroups gs k e).map Prod.fst ↔ k' ∈ gs.map Prod.fst ∨ k' = k := by
  rw [map_fst_addToGroups]
  by_cases hm : k ∈ gs.map Prod.fst
  · rw [if_pos hm]
    constructor
    · exact Or.inl
    · rintro (h | rfl)
      · exact h
      · exact hm
  · rw [if_neg hm]
    simp

theorem mem_keys_foldl :
    ∀ (entries : List (Nat × Expense)) (gs : DupGroups) (k : DupKey),
    k ∈ (entries.foldl (fun acc p => addToGroups acc (dupKey p.2) p) gs).map Prod.fst ↔
      k ∈ gs.map Prod.fst ∨ ∃ p ∈ entries, dupKey p.2 = k := by
  intro entries
  induction entries with
  | nil =>
    intro gs k
    simp
  | cons p rest ih =>
    intro gs k
    rw [List.foldl_cons, ih, mem_keys_addToGroups]
    simp only [List.mem_cons]
    constructor
    · rintro ((h | rfl) | ⟨q, hq, hk⟩)
      · exact Or.inl h
      · exact Or.inr ⟨p, Or.inl rfl, rfl⟩
      · exact Or.inr ⟨q, Or.inr hq, hk⟩
    · rintro (h | ⟨q, (rfl | hq), hk⟩)
      · exact Or.inl (Or.inl h)
      · exact Or.inl (Or.inr hk.symm)
      · exact Or.inr ⟨q, hq, hk⟩

theorem mem_groups_iff :
    ∀ {gs : DupGroups}, (gs.map Prod.fst).Nodup →
    ∀ {k : DupKey} {ms : List (Nat × Expense)},
    ((k, ms) ∈ gs ↔ k ∈ gs.map Prod.fst ∧ ms = groupOf gs k) := by
  intro gs
  induction gs with
  | nil =>
    intro _ k ms
    simp
  | cons g0 rest ih =>
    obtain ⟨k0, es0⟩ := g0
    intro hnd k ms
    rw [List.map_cons, List.nodup_cons] at hnd
    rw [List.map_cons]
    constructor
    · intro hmem
      rcases List.mem_cons.mp hmem with heq | hmem'
      · have hk : k = k0 := congrArg Prod.fst heq
        have hms : ms = es0 := congrArg Prod.snd heq
        subst hk
        subst hms
        exact ⟨by simp, by rw [groupOf, if_pos rfl]⟩
      · have hres := (ih hnd.2).mp hmem'
        refine ⟨by simp [hres.1], ?_⟩
        rw [groupOf, if_neg fun hc => hnd.1 (by rw [hc]; exact hres.1)]
        exact hres.2
    · rintro ⟨hk, hms⟩
      rcases List.mem_cons.mp hk with rfl | hk'
      · rw [groupOf, if_pos rfl] at hms
        subst hms
        exact List.mem_cons_self _ _
      · have hne : k0 ≠ k := fun hc => hnd.1 (by rw [hc]; exact hk')
        rw [groupOf, if_neg hne] at hms
        exact List.mem_cons_of_mem _ ((ih hnd.2).mpr ⟨hk', hms⟩)

theorem mem_duplicate_groups_iff (l : List Expense) (k : DupKey)
    (ms : List (Nat × Expense)) :
    (k, ms) ∈ duplicate_groups l ↔
      (∃ p ∈ l.enum, dupKey p.2 = k)
        ∧ ms = l.enum.filter fun p => decide (dupKey p.2 = k) := by
  have hnd : ((duplicate_groups l).map Prod.fst).Nodup := by
    unfold duplicate_groups buildGroups
    exact nodup_keys_foldl _ [] (by simp)
  have h1 : k ∈ (duplicate_groups l).map Prod.fst ↔ ∃ p ∈ l.enum, dupKey p.2 = k := by
    unfold duplicate_groups buildGroups
    rw [mem_keys_foldl]
    simp
  have h2 : groupOf (duplicate_groups l) k
      = l.enum.filter fun p => decide (dupKey p.2 = k) := by
    unfold duplicate_groups buildGroups
    rw [groupOf_foldl]
    rfl
  rw [mem_groups_iff hnd, h1, h2]

theorem mem_actual_duplicates_iff (l : List Expense) (k : DupKey)
    (ms : List (Nat × Expense)) :
    (k, ms) ∈ actual_duplicates l ↔
      ms = (l.enum.filter fun p => decide (dupKey p.2 = k)) ∧ 2 ≤ ms.length := by
  unfold actual_duplicates
  rw [List.mem_filter, mem_duplicate_groups_iff]
  constructor
  · rintro ⟨⟨hex, hms⟩, hlen⟩
    simp only [decide_eq_true_eq] at hlen
    exact ⟨hms, by omega⟩
  · rintro ⟨hms, hlen⟩
    subst hms
    refine ⟨⟨?_, rfl⟩, by simp only [decide_eq_true_eq]; omega⟩
    have hne : (l.enum.filter fun p => decide (dupKey p.2 = k)) ≠ [] := by
      intro hc
      rw [hc] at hlen
      simp at hlen
    obtain ⟨p, hp⟩ := List.exists_mem_of_ne_nil _ hne
    have hp' := List.mem_filter.mp hp
    exact ⟨p, hp'.1, by simpa using hp'.2⟩

theorem mem_map_fst_filter_enumFrom {P : Expense → Bool} (xs : List Expense)
    (n i : Nat) :
    (i ∈ ((List.enumFrom n xs).filter fun p => P p.2).map Prod.fst) ↔
      ∃ e, (i, e) ∈ List.enumFrom n xs ∧ P e = true := by
  rw [List.mem_map]
  constructor
  · rintro ⟨p, hp, rfl⟩
    have hp' := List.mem_filter.mp hp
    exact ⟨p.2, by simpa using hp'.1, hp'.2⟩
  · rintro ⟨e, hmem, hP⟩
    exact ⟨(i, e), List.mem_filter.mpr ⟨hmem, hP⟩, rfl⟩

theorem mem_tail_filter_enumFrom {P : Expense → Bool} :
    ∀ (xs : List Expense) (n i : Nat),
    (i ∈ (((List.enumFrom n xs).filter fun p => P p.2).drop 1).map Prod.fst) ↔
      ((∃ e, (i, e) ∈ List.enumFrom n xs ∧ P e = true)
        ∧ ∃ j e', (j, e') ∈ List.enumFrom n xs ∧ P e' = true ∧ j < i) := by
  intro xs
  induction xs with
  | nil =>
    intro n i
    simp [List.enumFrom]
  | cons a as ih =>
    intro n i
    rw [List.enumFrom_cons]
    by_cases hP : P a = true
    · rw [List.filter_cons_of_pos (by simpa using hP),
        show ∀ (x : Nat × Expense) (t : List (Nat × Expense)), (x :: t).drop 1 = t
          from fun _ _ => rfl,
        mem_map_fst_filter_enumFrom]
      constructor
      · rintro ⟨e, hmem, hPe⟩
        have hge := (List.mem_enumFrom hmem).1
        exact ⟨⟨e, List.mem_cons_of_mem _ hmem, hPe⟩,
          ⟨n, a, List.mem_cons_self _ _, hP, by omega⟩⟩
      · rintro ⟨⟨e, hmem, hPe⟩, ⟨j, e', hmem', hPe', hji⟩⟩
        rcases List.mem_cons.mp hmem with heq | hmem2
        · exfalso
          have hi : i = n := congrArg Prod.fst heq
          rcases List.mem_cons.mp hmem' with heq' | hmem2'
          · have : j = n := congrArg Prod.fst heq'
            omega
          · have := (List.mem_enumFrom hmem2').1
            omega
        · exact ⟨e, hmem2, hPe⟩
    · rw [List.filter_cons_of_neg (by simpa using hP), ih (n + 1) i]
      constructor
      · rintro ⟨⟨e, hm, hPe⟩, j, e', hm', hPe', hji⟩
        exact ⟨⟨e, List.mem_cons_of_mem _ hm, hPe⟩,
          j, e', List.mem_cons_of_mem _ hm', hPe', hji⟩
      · rintro ⟨⟨e, hm, hPe⟩, j, e', hm', hPe', hji⟩
        rcases List.mem_cons.mp hm with heq | hm2
        · have he : e = a := congrArg Prod.snd heq
          rw [he] at hPe
          exact absurd hPe hP
        · rcases List.mem_cons.mp hm' with heq' | hm2'
          · have he' : e' = a := congrArg Prod.snd heq'
            rw [he'] at hPe'
            exact absurd hPe' hP
          · exact ⟨⟨e, hm2, hPe⟩, j, e', hm2', hPe', hji⟩

theorem two_le_length_of_mem_ne {α : Type} {x y : α} {l : List α}
    (hx : x ∈ l) (hy : y ∈ l) (hne : x ≠ y) : 2 ≤ l.length := by
  cases l with
  | nil => simp at hx
  | cons a t =>
    cases t with
    | nil =>
      rw [List.mem_singleton] at hx hy
      exact absurd (hx.trans hy.symm) hne
    | cons b t2 => simp [List.length_cons]

theorem mem_selectAllDuplicates_iff (l : List Expense) (i : Nat) :
    i ∈ selectAllDuplicates l ↔
      ∃ j e e', j < i ∧ l[j]? = some e' ∧ l[i]? = some e
        ∧ dupKey e' = dupKey e := by
  unfold selectAllDuplicates
  rw [List.mem_flatMap]
  constructor
  · rintro ⟨⟨k, ms⟩, hg, hi⟩
    have hi' : i ∈ (ms.drop 1).map Prod.fst := hi
    obtain ⟨hms, hlen⟩ := (mem_actual_duplicates_iff l k ms).mp hg
    subst hms
    have hchar := (@mem_tail_filter_enumFrom
        (fun x => decide (dupKey x = k)) l 0 i).mp (by
      rw [List.enum] at hi'
      exact hi')
    rcases hchar with ⟨⟨e, hmem, hPe⟩, j, e', hmem', hPe', hji⟩
    simp only [decide_eq_true_eq] at hPe hPe'
    refine ⟨j, e, e', hji, ?_, ?_, hPe'.trans hPe.symm⟩
    · exact List.mem_enum_iff_getElem?.mp (by rw [List.enum]; exact hmem')
    · exact List.mem_enum_iff_getElem?.mp (by rw [List.enum]; exact hmem)
  · rintro ⟨j, e, e', hji, hj, hi, hkey⟩
    have hmemi : (i, e) ∈ List.enumFrom 0 l := by
      rw [← List.enum]
      exact List.mem_enum_iff_getElem?.mpr hi
    have hmemj : (j, e') ∈ List.enumFrom 0 l := by
      rw [← List.enum]
      exact List.mem_enum_iff_getElem?.mpr hj
    have htail : i ∈ ((((List.enumFrom 0 l).filter
        fun p => decide (dupKey p.2 = dupKey e)).drop 1).map Prod.fst) :=
      (@mem_tail_filter_enumFrom (fun x => decide (dupKey x = dupKey e)) l 0 i).mpr
        ⟨⟨e, hmemi, by simp⟩, j, e', hmemj, by simp [hkey], hji⟩
    refine ⟨(dupKey e, l.enum.filter fun p => decide (dupKey p.2 = dupKey e)),
      ?_, ?_⟩
    · rw [mem_actual_duplicates_iff]
      refine ⟨rfl, ?_⟩
      have hji' : (j, e') ∈ l.enum.filter fun p => decide (dupKey p.2 = dupKey e) :=
        List.mem_filter.mpr ⟨by rw [List.enum]; exact hmemj, by simp [hkey]⟩
      have hii : (i, e) ∈ l.enum.filter fun p => decide (dupKey p.2 = dupKey e) :=
        List.mem_filter.mpr ⟨by rw [List.enum]; exact hmemi, by simp⟩
      exact two_le_length_of_mem_ne hji' hii (by intro hc; cases hc; omega)
    · rw [List.enum]
      exact htail

/-- C7: the batch scan groups every record by its (date, category, amount) key
with original indices in ascending insertion order, reports exactly the keys
having 2 or more members, and the select-all-duplicates action picks exactly
the indices whose key already occurred at a smaller index; on the spec's
`[A, B, A']` example it yields the single group `{(0, A), (2, A')}` and the
selection `{2}`. -/
theorem claim_C7_scan_groups_and_selection :
    (∀ (l : List Expense) (k : DupKey) (ms : List (Nat × Expense)),
      (k, ms) ∈ actual_duplicates l ↔
        ms = (l.enum.filter fun p => decide (dupKey p.2 = k)) ∧ 2 ≤ ms.length)
    ∧ (∀ (l : List Expense) (i : Nat),
      i ∈ selectAllDuplicates l ↔
        ∃ j e e', j < i ∧ l[j]? = some e' ∧ l[i]? = some e
          ∧ dupKey e' = dupKey e)
    ∧ actual_duplicates [milkRecord, busRecord, breadCandidate]
        = [(dupKey milkRecord, [(0, milkRecord), (2, breadCandidate)])]
    ∧ selectAllDuplicates [milkRecord, busRecord, breadCandidate] = [2] :=
  ⟨mem_actual_duplicates_iff, mem_selectAllDuplicates_iff, by decide, by decide⟩

end ExpTracker
